import Mathlib

/-!
Verification development for the spicedb background-maintenance engine.

Part A embeds the permission-alias analysis (`computePermissionAliases`)
from the namespace package.  Go maps are embedded as association lists with
replace-or-append insertion; the Go `range` loop over the working set is
embedded as a pass over the association list in insertion order.

Part B embeds the fake garbage-collection backend from the test file of the
`common` datastore package together with a discrete-time model of the
garbage-collection engine itself (the scheduler loop, the backoff policy and
the one-shot runner), which is modelled from the specification since its
source is not part of the extracted sources.
-/

namespace SpiceDB

/-! ## Part A: permission alias analysis -/

/-- ComputedUserset proto message: carries the name of the referred
relation or permission (`GetRelation`). -/
structure ComputedUserset where
  relation : String
  deriving DecidableEq, Repr

/-- Child of a SetOperation; the analysis only distinguishes the
computed-userset child (`GetComputedUserset` returns nil on the others). -/
inductive SetOperationChild
  | thisChild
  | computedUserset (cu : ComputedUserset)
  | childRewrite
  | tupleToUserset
  deriving DecidableEq, Repr

/-- GetComputedUserset accessor of a SetOperation child. -/
def SetOperationChild.getComputedUserset : SetOperationChild → Option ComputedUserset
  | .computedUserset cu => some cu
  | _ => none

/-- SetOperation proto message: a list of children. -/
structure SetOperation where
  child : List SetOperationChild
  deriving DecidableEq, Repr

/-- UsersetRewrite proto message: a oneof over union/intersection/exclusion. -/
inductive UsersetRewrite
  | union (op : SetOperation)
  | intersection (op : SetOperation)
  | exclusion (op : SetOperation)
  deriving DecidableEq, Repr

/-- GetUnion accessor of a userset rewrite (nil unless the rewrite is a union). -/
def UsersetRewrite.getUnion : UsersetRewrite → Option SetOperation
  | .union op => some op
  | _ => none

/-- Relation proto message: a name plus an optional userset rewrite
(`GetUsersetRewrite` returns nil for plain relations). -/
structure Relation where
  name : String
  usersetRewrite : Option UsersetRewrite
  deriving DecidableEq, Repr

/-- NamespaceDefinition proto message, restricted to the field the
analysis reads: the list of relations. -/
structure NamespaceDefinition where
  relation : List Relation
  deriving DecidableEq, Repr

/-- ValidatedNamespaceTypeSystem as consumed by the analysis: the namespace
definition plus the `IsPermission` capability it queries.  `IsPermission`
is kept as a function field because its implementation lives outside the
extracted sources; theorems that need it assume the well-formedness
property a validated type system provides (a name is a permission exactly
when a relation of that name carries a userset rewrite). -/
structure ValidatedNamespaceTypeSystem where
  nsDef : NamespaceDefinition
  IsPermission : String → Bool

/-- Lookup in an association-list embedding of a Go `map[string]string`. -/
def lookupKey : List (String × String) → String → Option String
  | [], _ => none
  | (k', v) :: rest, k => if k' = k then some v else lookupKey rest k

/-- Insertion (`m[k] = v`) in the association-list embedding: replaces the
binding if the key is present, otherwise appends it. -/
def putKey : List (String × String) → String → String → List (String × String)
  | [], k, v => [(k, v)]
  | (k', v') :: rest, k, v =>
      if k' = k then (k, v) :: rest else (k', v') :: putKey rest k v

/-- Insertion in the association-list embedding of a Go `map[string]struct{}`. -/
def insertName (l : List String) (k : String) : List String :=
  if k ∈ l then l else k :: l

/-- Accumulator of the classification loop: the `done` set, the `aliases`
map and the `workingSet` map of `computePermissionAliases`. -/
structure ClassState where
  done : List String
  aliases : List (String × String)
  workingSet : List (String × String)
  deriving DecidableEq, Repr

/-- Body of the first loop of `computePermissionAliases`: classifies one
relation.  A relation without a rewrite, without a union, with more than
one child or without a computed userset is marked done; a direct alias of a
non-permission is recorded in `aliases`; a direct alias of a permission is
put on the working set. -/
def classifyRel (ts : ValidatedNamespaceTypeSystem) (st : ClassState)
    (rel : Relation) : ClassState :=
  match rel.usersetRewrite with
  | none => { st with done := insertName st.done rel.name }
  | some rw =>
    match rw.getUnion with
    | none => { st with done := insertName st.done rel.name }
    | some ugh =>
      match ugh.child with
      | [c] =>
        match c.getComputedUserset with
        | none => { st with done := insertName st.done rel.name }
        | some cu =>
          if ts.IsPermission cu.relation then
            { st with workingSet := putKey st.workingSet rel.name cu.relation }
          else
            { st with done := insertName st.done rel.name,
                      aliases := putKey st.aliases rel.name cu.relation }
      | _ => { st with done := insertName st.done rel.name }

/-- First phase of `computePermissionAliases`: classify every relation of
the namespace in order. -/
def classifyRelations (ts : ValidatedNamespaceTypeSystem) : ClassState :=
  ts.nsDef.relation.foldl (classifyRel ts) ⟨[], [], []⟩

/-- One pass of the resolution loop (`for relName, aliasedPermission :=
range workingSet`): entries whose target is done are resolved (added to
`done`, given their terminal alias in `aliases`, deleted from the working
set); the others are kept.  Later entries of the same pass observe the
updates made by earlier ones, as the Go loop does. -/
def resolvePass (done : List String) (aliases : List (String × String)) :
    List (String × String) → List String × List (String × String) × List (String × String)
  | [] => (done, aliases, [])
  | (relName, aliasedPermission) :: rest =>
    if aliasedPermission ∈ done then
      let newAlias := (lookupKey aliases aliasedPermission).getD aliasedPermission
      resolvePass (insertName done relName) (putKey aliases relName newAlias) rest
    else
      let (d', a', p') := resolvePass done aliases rest
      (d', a', (relName, aliasedPermission) :: p')

theorem resolvePass_length_le (done : List String) (aliases : List (String × String))
    (ws : List (String × String)) :
    (resolvePass done aliases ws).2.2.length ≤ ws.length := by
  induction ws generalizing done aliases with
  | nil => simp [resolvePass]
  | cons hd rest ih =>
    obtain ⟨relName, aliasedPermission⟩ := hd
    simp only [resolvePass]
    split
    · exact le_trans (ih _ _) (Nat.le_succ _)
    · simpa using ih done aliases

/-- Second phase of `computePermissionAliases`: repeat passes until the
working set is empty; a pass that resolves nothing reports a cycle, as a
lexicographically sorted list of the unresolved permission names
(`sort.Strings`). -/
def resolveLoop (done : List String) (aliases : List (String × String))
    (workingSet : List (String × String)) :
    Except (List String) (List (String × String)) :=
  if workingSet = [] then .ok aliases
  else
    let r := resolvePass done aliases workingSet
    if h : r.2.2.length = workingSet.length then
      .error (List.insertionSort (· ≤ ·) (r.2.2.map Prod.fst))
    else
      resolveLoop r.1 r.2.1 r.2.2
termination_by workingSet.length
decreasing_by
  exact lt_of_le_of_ne (resolvePass_length_le _ _ _) h

/-- computePermissionAliases: computes the map of direct permission
aliases of a namespace, fully collapsed, or reports a cycle. -/
def computePermissionAliases (typeSystem : ValidatedNamespaceTypeSystem) :
    Except (List String) (List (String × String)) :=
  let st := classifyRelations typeSystem
  resolveLoop st.done st.aliases st.workingSet

/-- Fuel-indexed variant of the resolution loop, counting passes; `none`
means the fuel ran out before the loop exited. -/
def resolveLoopFuel (fuel : Nat) (done : List String)
    (aliases : List (String × String)) (workingSet : List (String × String)) :
    Option (Except (List String) (List (String × String))) :=
  if workingSet = [] then some (.ok aliases)
  else
    match fuel with
    | 0 => none
    | fuel + 1 =>
      let r := resolvePass done aliases workingSet
      if r.2.2.length = workingSet.length then
        some (.error (List.insertionSort (· ≤ ·) (r.2.2.map Prod.fst)))
      else
        resolveLoopFuel fuel r.1 r.2.1 r.2.2

/-- Key list of an association-list embedding of a Go map. -/
def keysOf (m : List (String × String)) : List String := m.map Prod.fst

theorem mem_keysOf {k : String} {m : List (String × String)} :
    k ∈ keysOf m ↔ ∃ v, (k, v) ∈ m := by
  simp only [keysOf, List.mem_map]
  constructor
  · rintro ⟨⟨a, b⟩, hm, rfl⟩; exact ⟨b, hm⟩
  · rintro ⟨v, hv⟩; exact ⟨(k, v), hv, rfl⟩

theorem lookupKey_eq_none {m : List (String × String)} {k : String} :
    lookupKey m k = none ↔ k ∉ keysOf m := by
  induction m with
  | nil => simp [lookupKey, keysOf]
  | cons hd rest ih =>
    obtain ⟨k', v⟩ := hd
    by_cases h : k' = k
    · subst h; simp [lookupKey, keysOf]
    · simp [lookupKey, h, keysOf] at ih ⊢
      rw [ih]
      simp [Ne.symm h]

theorem lookupKey_mem {m : List (String × String)} {k v : String}
    (h : lookupKey m k = some v) : (k, v) ∈ m := by
  induction m with
  | nil => simp [lookupKey] at h
  | cons hd rest ih =>
    obtain ⟨k', v'⟩ := hd
    by_cases hk : k' = k
    · subst hk
      simp [lookupKey] at h
      simp [h]
    · simp [lookupKey, hk] at h
      simp [ih h]

theorem putKey_of_not_mem (m : List (String × String)) (k v : String)
    (h : k ∉ keysOf m) : putKey m k v = m ++ [(k, v)] := by
  induction m with
  | nil => simp [putKey]
  | cons hd rest ih =>
    obtain ⟨k', v'⟩ := hd
    simp [keysOf] at h
    simp [putKey, h.1, ih (by simp [keysOf, h.2])]
    intro he
    exact absurd he.symm h.1

theorem keysOf_putKey (m : List (String × String)) (k v : String) :
    keysOf (putKey m k v) = if k ∈ keysOf m then keysOf m else keysOf m ++ [k] := by
  induction m with
  | nil => simp [putKey, keysOf]
  | cons hd rest ih =>
    obtain ⟨k', v'⟩ := hd
    by_cases h : k' = k
    · subst h; simp [putKey, keysOf]
    · simp only [putKey, if_neg h, keysOf, List.map_cons] at ih ⊢
      rw [ih]
      by_cases hm : k ∈ List.map Prod.fst rest <;>
        simp [hm, Ne.symm h, List.mem_cons]

theorem insertName_subset (l : List String) (k : String) :
    insertName l k ⊆ k :: l := by
  unfold insertName
  split <;> simp [List.subset_cons_of_subset, List.Subset.refl]

theorem subset_insertName (l : List String) (k : String) :
    l ⊆ insertName l k := by
  unfold insertName
  split
  · exact fun x hx => hx
  · exact fun x hx => List.mem_cons_of_mem _ hx

theorem mem_insertName (l : List String) (k : String) : k ∈ insertName l k := by
  unfold insertName
  split <;> simp_all

theorem mem_insertName_iff {l : List String} {k a : String} :
    a ∈ insertName l k ↔ a = k ∨ a ∈ l := by
  unfold insertName
  split <;> simp_all

/-- Fuel of one pass per working-set entry suffices: the fueled loop agrees
with the loop on that much fuel.  Hence the loop performs at most as many
passes as there are working-set entries. -/
theorem resolveLoopFuel_eq (fuel : Nat) :
    ∀ (done : List String) (aliases ws : List (String × String)),
      ws.length ≤ fuel →
      resolveLoopFuel fuel done aliases ws = some (resolveLoop done aliases ws) := by
  induction fuel with
  | zero =>
    intro d a ws h
    have hw : ws = [] := by cases ws <;> simp_all
    subst hw
    rw [resolveLoopFuel, resolveLoop]
    simp
  | succ f ih =>
    intro d a ws h
    by_cases hw : ws = []
    · subst hw; rw [resolveLoopFuel, resolveLoop]; simp
    · rw [resolveLoopFuel, resolveLoop]
      simp only [if_neg hw]
      by_cases hl : (resolvePass d a ws).2.2.length = ws.length
      · simp [hl]
      · simp only [hl, dif_neg, if_neg, not_false_iff]
        exact ih _ _ _ (by have := resolvePass_length_le d a ws; omega)

theorem putKey_length_le (m : List (String × String)) (k v : String) :
    (putKey m k v).length ≤ m.length + 1 := by
  induction m with
  | nil => simp [putKey]
  | cons hd rest ih =>
    obtain ⟨k', v'⟩ := hd
    simp only [putKey]
    split <;> simp_all

theorem classifyRel_ws_length (ts : ValidatedNamespaceTypeSystem) (st : ClassState)
    (rel : Relation) :
    (classifyRel ts st rel).workingSet.length ≤ st.workingSet.length + 1 := by
  unfold classifyRel
  repeat' split
  all_goals first
    | exact putKey_length_le _ _ _
    | exact Nat.le_succ_of_le le_rfl

theorem classify_fold_ws_length (ts : ValidatedNamespaceTypeSystem) :
    ∀ (rels : List Relation) (st : ClassState),
      ((rels.foldl (classifyRel ts) st).workingSet.length ≤
        st.workingSet.length + rels.length) := by
  intro rels
  induction rels with
  | nil => simp
  | cons hd rest ih =>
    intro st
    have h1 := classifyRel_ws_length ts st hd
    have h2 := ih (classifyRel ts st hd)
    simp only [List.foldl_cons, List.length_cons]
    omega

/-- C8: computePermissionAliases terminates on every input namespace; the
resolution loop, run with one unit of fuel per working-set entry, already
reaches the same answer (each pass either removes an entry or exits with a
cycle error), and the working set starts no larger than the relation
list. -/
theorem computePermissionAliases_terminates (ts : ValidatedNamespaceTypeSystem) :
    resolveLoopFuel (classifyRelations ts).workingSet.length (classifyRelations ts).done
        (classifyRelations ts).aliases (classifyRelations ts).workingSet
      = some (computePermissionAliases ts) ∧
    (classifyRelations ts).workingSet.length ≤ ts.nsDef.relation.length := by
  constructor
  · exact resolveLoopFuel_eq _ _ _ _ le_rfl
  · have := classify_fold_ws_length ts ts.nsDef.relation ⟨[], [], []⟩
    simpa [classifyRelations] using this

/-- Invariant of the resolution loop state carrying claim C9: alias values
are keys of neither the alias map nor the pending working set, pending
keys are not done, both key lists are duplicate-free and disjoint. -/
def ResolveInv (done : List String) (aliases pending : List (String × String)) : Prop :=
  (∀ p ∈ aliases, p.2 ∉ keysOf aliases ∧ p.2 ∉ keysOf pending) ∧
  (∀ k ∈ keysOf pending, k ∉ done) ∧
  (keysOf aliases).Nodup ∧
  (keysOf pending).Nodup ∧
  (∀ k ∈ keysOf aliases, k ∉ keysOf pending)

theorem ResolveInv_perm {done : List String} {aliases : List (String × String)}
    {p1 p2 : List (String × String)} (hp : p1.Perm p2)
    (h : ResolveInv done aliases p1) : ResolveInv done aliases p2 := by
  obtain ⟨h1, h2, h3, h4, h5⟩ := h
  have hk : (keysOf p1).Perm (keysOf p2) := hp.map Prod.fst
  exact ⟨fun p hpm => ⟨(h1 p hpm).1, fun hm => (h1 p hpm).2 (hk.mem_iff.mpr hm)⟩,
         fun k hk2 => h2 k (hk.mem_iff.mpr hk2),
         h3, hk.nodup_iff.mp h4,
         fun k hka hkp => h5 k hka (hk.mem_iff.mpr hkp)⟩

theorem ResolveInv_step {done : List String} {aliases : List (String × String)}
    {k t : String} {rest : List (String × String)}
    (hinv : ResolveInv done aliases ((k, t) :: rest)) (ht : t ∈ done) :
    ResolveInv (insertName done k)
      (putKey aliases k ((lookupKey aliases t).getD t)) rest := by
  obtain ⟨h1, h2, h3, h4, h5⟩ := hinv
  have hkeyscons : keysOf ((k, t) :: rest) = k :: keysOf rest := by simp [keysOf]
  have hkpend : k ∈ keysOf ((k, t) :: rest) := by simp [hkeyscons]
  have hknota : k ∉ keysOf aliases := fun h => h5 k h hkpend
  have hput := putKey_of_not_mem aliases k ((lookupKey aliases t).getD t) hknota
  have hkeysput : keysOf (putKey aliases k ((lookupKey aliases t).getD t)) =
      keysOf aliases ++ [k] := by
    rw [hput]; simp [keysOf]
  have hvfacts : ((lookupKey aliases t).getD t) ∉ keysOf aliases ∧
      ((lookupKey aliases t).getD t) ∉ keysOf ((k, t) :: rest) := by
    rcases hl : lookupKey aliases t with _ | v'
    · simp only [Option.getD_none]
      refine ⟨lookupKey_eq_none.mp hl, ?_⟩
      intro hmem; exact h2 t hmem ht
    · simp only [Option.getD_some]
      exact h1 (t, v') (lookupKey_mem hl)
  rw [hkeyscons] at h2 h4 h5
  have hknotr : k ∉ keysOf rest := (List.nodup_cons.mp h4).1
  have h4r : (keysOf rest).Nodup := (List.nodup_cons.mp h4).2
  refine ⟨?_, ?_, ?_, h4r, ?_⟩
  · intro p hp
    rw [hput] at hp
    rw [hkeysput]
    rcases List.mem_append.mp hp with hpa | hpk
    · have o1 := (h1 p hpa).1
      have o2 := (h1 p hpa).2
      rw [hkeyscons] at o2
      simp only [List.mem_cons] at o2
      push_neg at o2
      constructor
      · simp only [List.mem_append, List.mem_singleton]
        rintro (h | h)
        · exact o1 h
        · exact o2.1 h
      · exact o2.2
    · simp only [List.mem_singleton] at hpk
      subst hpk
      have o2 := hvfacts.2
      rw [hkeyscons] at o2
      simp only [List.mem_cons] at o2
      push_neg at o2
      constructor
      · simp only [List.mem_append, List.mem_singleton]
        rintro (h | h)
        · exact hvfacts.1 h
        · exact o2.1 h
      · exact o2.2
  · intro k' hk'
    rw [mem_insertName_iff]
    push_neg
    constructor
    · rintro rfl; exact hknotr hk'
    · exact h2 k' (List.mem_cons_of_mem _ hk')
  · rw [hkeysput]
    exact List.Nodup.append h3 (List.nodup_singleton k)
      (by simpa [List.disjoint_singleton] using hknota)
  · intro k' hk'
    rw [hkeysput] at hk'
    rcases List.mem_append.mp hk' with h | h
    · exact fun hm => h5 k' h (List.mem_cons_of_mem _ hm)
    · simp only [List.mem_singleton] at h
      subst h
      exact hknotr

theorem ResolveInv_resolvePass :
    ∀ (cur : List (String × String)) (done : List String)
      (aliases skipped : List (String × String)),
      ResolveInv done aliases (cur ++ skipped) →
      ResolveInv (resolvePass done aliases cur).1 (resolvePass done aliases cur).2.1
        ((resolvePass done aliases cur).2.2 ++ skipped) := by
  intro cur
  induction cur with
  | nil => intro d a sk h; simpa [resolvePass] using h
  | cons hd rest ih =>
    obtain ⟨k, t⟩ := hd
    intro d a sk h
    by_cases ht : t ∈ d
    · have hh : ResolveInv d a ((k, t) :: (rest ++ sk)) := by simpa using h
      have hstep := ResolveInv_step hh ht
      have := ih (insertName d k) (putKey a k ((lookupKey a t).getD t)) sk hstep
      simpa [resolvePass, ht] using this
    · have hperm : ((k, t) :: (rest ++ sk)).Perm (rest ++ (k, t) :: sk) :=
        List.perm_middle.symm
      have h' := ResolveInv_perm hperm (by simpa using h)
      have := ih d a ((k, t) :: sk) h'
      have hperm2 : ((resolvePass d a rest).2.2 ++ (k, t) :: sk).Perm
          (((k, t) :: (resolvePass d a rest).2.2) ++ sk) :=
        List.perm_middle
      have hres := ResolveInv_perm hperm2 this
      simpa [resolvePass, ht] using hres

theorem resolveLoop_ok_resolved (n : Nat) :
    ∀ (ws : List (String × String)), ws.length ≤ n →
    ∀ (done : List String) (aliases m : List (String × String)),
      ResolveInv done aliases ws →
      resolveLoop done aliases ws = .ok m →
      ∀ p ∈ m, p.2 ∉ keysOf m := by
  induction n with
  | zero =>
    intro ws h d a m hinv hok
    have hw : ws = [] := by cases ws <;> simp_all
    subst hw
    rw [resolveLoop] at hok
    simp at hok
    subst hok
    exact fun p hp => (hinv.1 p hp).1
  | succ f ih =>
    intro ws h d a m hinv hok
    by_cases hw : ws = []
    · subst hw
      rw [resolveLoop] at hok
      simp at hok
      subst hok
      exact fun p hp => (hinv.1 p hp).1
    · rw [resolveLoop] at hok
      simp only [if_neg hw] at hok
      by_cases hl : (resolvePass d a ws).2.2.length = ws.length
      · simp [hl] at hok
      · simp only [hl, dif_neg, not_false_iff] at hok
        have hinv' := ResolveInv_resolvePass ws d a [] (by simpa using hinv)
        simp only [List.append_nil] at hinv'
        exact ih _ (by have := resolvePass_length_le d a ws; omega) _ _ _ hinv' hok

/-- Invariant established by the classification phase, with the
permission-status bookkeeping needed to hand over to the resolution
loop: alias values are non-permissions, alias and working-set keys are
permissions, key lists are duplicate-free and disjoint from each other
and from the done set, and working-set targets are permissions. -/
def ClassInv (ts : ValidatedNamespaceTypeSystem) (st : ClassState) : Prop :=
  (∀ p ∈ st.aliases, ts.IsPermission p.2 = false) ∧
  (∀ k ∈ keysOf st.aliases, ts.IsPermission k = true) ∧
  (∀ k ∈ keysOf st.workingSet, ts.IsPermission k = true) ∧
  (keysOf st.aliases).Nodup ∧
  (keysOf st.workingSet).Nodup ∧
  (∀ k ∈ keysOf st.workingSet, k ∉ st.done) ∧
  (∀ k ∈ keysOf st.aliases, k ∉ keysOf st.workingSet) ∧
  (∀ p ∈ st.workingSet, ts.IsPermission p.2 = true)

theorem ClassInv_insert_done (ts : ValidatedNamespaceTypeSystem) (st : ClassState)
    (nm : String) (hf : nm ∉ keysOf st.workingSet) (hinv : ClassInv ts st) :
    ClassInv ts { st with done := insertName st.done nm } := by
  obtain ⟨c1, c2, c3, c4, c5, c6, c7, c8⟩ := hinv
  refine ⟨c1, c2, c3, c4, c5, ?_, c7, c8⟩
  intro k hk
  rw [mem_insertName_iff]
  push_neg
  exact ⟨fun he => hf (he ▸ hk), c6 k hk⟩

theorem ClassInv_add_ws (ts : ValidatedNamespaceTypeSystem) (st : ClassState)
    (nm target : String)
    (hpn : ts.IsPermission nm = true) (hpt : ts.IsPermission target = true)
    (hf1 : nm ∉ st.done) (hf2 : nm ∉ keysOf st.aliases) (hf3 : nm ∉ keysOf st.workingSet)
    (hinv : ClassInv ts st) :
    ClassInv ts { st with workingSet := putKey st.workingSet nm target } := by
  obtain ⟨c1, c2, c3, c4, c5, c6, c7, c8⟩ := hinv
  have hput := putKey_of_not_mem st.workingSet nm target hf3
  have hkeys : keysOf (putKey st.workingSet nm target) = keysOf st.workingSet ++ [nm] := by
    rw [hput]; simp [keysOf]
  refine ⟨c1, c2, ?_, c4, ?_, ?_, ?_, ?_⟩
  · intro k hk
    rw [hkeys] at hk
    rcases List.mem_append.mp hk with h | h
    · exact c3 k h
    · simp only [List.mem_singleton] at h; subst h; exact hpn
  · rw [hkeys]
    exact List.Nodup.append c5 (List.nodup_singleton nm)
      (by simpa [List.disjoint_singleton] using hf3)
  · intro k hk
    rw [hkeys] at hk
    rcases List.mem_append.mp hk with h | h
    · exact c6 k h
    · simp only [List.mem_singleton] at h; subst h; exact hf1
  · intro k hk
    rw [hkeys]
    simp only [List.mem_append, List.mem_singleton]
    push_neg
    exact ⟨c7 k hk, fun he => hf2 (he ▸ hk)⟩
  · intro p hp
    rw [hput] at hp
    rcases List.mem_append.mp hp with h | h
    · exact c8 p h
    · simp only [List.mem_singleton] at h; subst h; exact hpt

theorem ClassInv_add_alias (ts : ValidatedNamespaceTypeSystem) (st : ClassState)
    (nm target : String)
    (hpn : ts.IsPermission nm = true) (hpt : ts.IsPermission target = false)
    (hf2 : nm ∉ keysOf st.aliases) (hf3 : nm ∉ keysOf st.workingSet)
    (hinv : ClassInv ts st) :
    ClassInv ts { st with done := insertName st.done nm,
                          aliases := putKey st.aliases nm target } := by
  obtain ⟨c1, c2, c3, c4, c5, c6, c7, c8⟩ := hinv
  have hput := putKey_of_not_mem st.aliases nm target hf2
  have hkeys : keysOf (putKey st.aliases nm target) = keysOf st.aliases ++ [nm] := by
    rw [hput]; simp [keysOf]
  refine ⟨?_, ?_, c3, ?_, c5, ?_, ?_, c8⟩
  · intro p hp
    rw [hput] at hp
    rcases List.mem_append.mp hp with h | h
    · exact c1 p h
    · simp only [List.mem_singleton] at h; subst h; exact hpt
  · intro k hk
    rw [hkeys] at hk
    rcases List.mem_append.mp hk with h | h
    · exact c2 k h
    · simp only [List.mem_singleton] at h; subst h; exact hpn
  · rw [hkeys]
    exact List.Nodup.append c4 (List.nodup_singleton nm)
      (by simpa [List.disjoint_singleton] using hf2)
  · intro k hk
    rw [mem_insertName_iff]
    push_neg
    exact ⟨fun he => hf3 (he ▸ hk), c6 k hk⟩
  · intro k hk
    rw [hkeys] at hk
    rcases List.mem_append.mp hk with h | h
    · exact c7 k h
    · simp only [List.mem_singleton] at h; subst h; exact hf3

theorem classifyRel_inv (ts : ValidatedNamespaceTypeSystem)
    (hwf : ∀ s, ts.IsPermission s = true ↔
      ∃ rel ∈ ts.nsDef.relation, rel.name = s ∧ rel.usersetRewrite ≠ none)
    (st : ClassState) (r : Relation) (hr : r ∈ ts.nsDef.relation)
    (hf1 : r.name ∉ st.done) (hf2 : r.name ∉ keysOf st.aliases)
    (hf3 : r.name ∉ keysOf st.workingSet)
    (hinv : ClassInv ts st) : ClassInv ts (classifyRel ts st r) := by
  rcases hrw : r.usersetRewrite with _ | rw
  · have he : classifyRel ts st r = { st with done := insertName st.done r.name } := by
      simp [classifyRel, hrw]
    rw [he]; exact ClassInv_insert_done ts st r.name hf3 hinv
  · have hpn : ts.IsPermission r.name = true :=
      (hwf r.name).mpr ⟨r, hr, rfl, by simp [hrw]⟩
    rcases hu : rw.getUnion with _ | u
    · have he : classifyRel ts st r = { st with done := insertName st.done r.name } := by
        simp [classifyRel, hrw, hu]
      rw [he]; exact ClassInv_insert_done ts st r.name hf3 hinv
    · rcases hc : u.child with _ | ⟨c, cs⟩
      · have he : classifyRel ts st r = { st with done := insertName st.done r.name } := by
          simp [classifyRel, hrw, hu, hc]
        rw [he]; exact ClassInv_insert_done ts st r.name hf3 hinv
      · rcases cs with _ | ⟨c2, cs2⟩
        · rcases hcu : c.getComputedUserset with _ | cu
          · have he : classifyRel ts st r = { st with done := insertName st.done r.name } := by
              simp [classifyRel, hrw, hu, hc, hcu]
            rw [he]; exact ClassInv_insert_done ts st r.name hf3 hinv
          · by_cases hp : ts.IsPermission cu.relation = true
            · have he : classifyRel ts st r =
                  { st with workingSet := putKey st.workingSet r.name cu.relation } := by
                simp [classifyRel, hrw, hu, hc, hcu, hp]
              rw [he]
              exact ClassInv_add_ws ts st r.name cu.relation hpn hp hf1 hf2 hf3 hinv
            · have hp' : ts.IsPermission cu.relation = false := by
                simpa using hp
              have he : classifyRel ts st r =
                  { st with done := insertName st.done r.name,
                            aliases := putKey st.aliases r.name cu.relation } := by
                simp [classifyRel, hrw, hu, hc, hcu, hp']
              rw [he]
              exact ClassInv_add_alias ts st r.name cu.relation hpn hp' hf2 hf3 hinv
        · have he : classifyRel ts st r = { st with done := insertName st.done r.name } := by
            simp [classifyRel, hrw, hu, hc]
          rw [he]; exact ClassInv_insert_done ts st r.name hf3 hinv

theorem keysOf_putKey_subset (m : List (String × String)) (k v : String) :
    keysOf (putKey m k v) ⊆ keysOf m ++ [k] := by
  rw [keysOf_putKey]
  split
  · exact fun x hx => List.mem_append.mpr (Or.inl hx)
  · exact fun x hx => hx

theorem classifyRel_frame (ts : ValidatedNamespaceTypeSystem) (st : ClassState)
    (r : Relation) :
    (classifyRel ts st r).done ⊆ r.name :: st.done ∧
    keysOf (classifyRel ts st r).aliases ⊆ keysOf st.aliases ++ [r.name] ∧
    keysOf (classifyRel ts st r).workingSet ⊆ keysOf st.workingSet ++ [r.name] := by
  unfold classifyRel
  repeat' split
  all_goals
    refine ⟨?_, ?_, ?_⟩ <;>
      first
        | exact keysOf_putKey_subset _ _ _
        | exact insertName_subset _ _
        | exact fun x hx => List.mem_cons_of_mem _ hx
        | exact fun x hx => List.mem_append.mpr (Or.inl hx)

theorem classify_fold_inv (ts : ValidatedNamespaceTypeSystem)
    (hwf : ∀ s, ts.IsPermission s = true ↔
      ∃ rel ∈ ts.nsDef.relation, rel.name = s ∧ rel.usersetRewrite ≠ none) :
    ∀ (rels : List Relation) (st : ClassState),
      (∀ r ∈ rels, r ∈ ts.nsDef.relation) →
      (rels.map Relation.name).Nodup →
      (∀ r ∈ rels, r.name ∉ st.done ∧ r.name ∉ keysOf st.aliases ∧
        r.name ∉ keysOf st.workingSet) →
      ClassInv ts st →
      ClassInv ts (rels.foldl (classifyRel ts) st) := by
  intro rels
  induction rels with
  | nil => intro st _ _ _ h; simpa using h
  | cons r rest ih =>
    intro st hsub hnd hfresh hinv
    simp only [List.foldl_cons]
    have hndc : (∀ x ∈ rest, ¬x.name = r.name) ∧ (List.map Relation.name rest).Nodup := by
      simpa using hnd
    apply ih
    · intro x hx; exact hsub x (List.mem_cons_of_mem _ hx)
    · exact hndc.2
    · intro x hx
      have hxname : x.name ≠ r.name := hndc.1 x hx
      obtain ⟨f1, f2, f3⟩ := hfresh x (List.mem_cons_of_mem _ hx)
      obtain ⟨g1, g2, g3⟩ := classifyRel_frame ts st r
      refine ⟨?_, ?_, ?_⟩
      · intro hm
        rcases List.mem_cons.mp (g1 hm) with h | h
        · exact hxname h
        · exact f1 h
      · intro hm
        rcases List.mem_append.mp (g2 hm) with h | h
        · exact f2 h
        · simp only [List.mem_singleton] at h; exact hxname h
      · intro hm
        rcases List.mem_append.mp (g3 hm) with h | h
        · exact f3 h
        · simp only [List.mem_singleton] at h; exact hxname h
    · exact classifyRel_inv ts hwf st r (hsub r (List.mem_cons_self r rest))
        (hfresh r (List.mem_cons_self r rest)).1
        (hfresh r (List.mem_cons_self r rest)).2.1
        (hfresh r (List.mem_cons_self r rest)).2.2 hinv

theorem classify_inv (ts : ValidatedNamespaceTypeSystem)
    (hwf : ∀ s, ts.IsPermission s = true ↔
      ∃ rel ∈ ts.nsDef.relation, rel.name = s ∧ rel.usersetRewrite ≠ none)
    (hnd : (ts.nsDef.relation.map Relation.name).Nodup) :
    ClassInv ts (classifyRelations ts) := by
  apply classify_fold_inv ts hwf ts.nsDef.relation ⟨[], [], []⟩
  · intro r h; exact h
  · exact hnd
  · intro r _; exact ⟨by simp, by simp [keysOf], by simp [keysOf]⟩
  · refine ⟨by simp, by simp [keysOf], by simp [keysOf], by simp [keysOf],
      by simp [keysOf], by simp [keysOf], by simp [keysOf], by simp⟩

theorem ClassInv_to_ResolveInv (ts : ValidatedNamespaceTypeSystem) (st : ClassState)
    (h : ClassInv ts st) : ResolveInv st.done st.aliases st.workingSet := by
  obtain ⟨c1, c2, c3, c4, c5, c6, c7, _⟩ := h
  refine ⟨?_, c6, c4, c5, c7⟩
  intro p hp
  have hfalse := c1 p hp
  constructor
  · intro hk
    have := c2 p.2 hk
    rw [hfalse] at this
    cases this
  · intro hk
    have := c3 p.2 hk
    rw [hfalse] at this
    cases this

/-- IsPermission of a validated namespace, as the analysis relies on it: a
name names a permission when a relation of that name carries a userset
rewrite.  Used to build concrete type systems satisfying the
well-formedness hypothesis. -/
def isPermissionIn (nsd : NamespaceDefinition) (s : String) : Bool :=
  nsd.relation.any (fun r => r.name = s && r.usersetRewrite.isSome)

theorem isPermissionIn_iff (nsd : NamespaceDefinition) (s : String) :
    isPermissionIn nsd s = true ↔
      ∃ rel ∈ nsd.relation, rel.name = s ∧ rel.usersetRewrite ≠ none := by
  simp [isPermissionIn, List.any_eq_true, Option.isSome_iff_ne_none]

/-- C9: when computePermissionAliases returns a map without error, the map
is fully resolved: no value of the alias map is itself a key of the map
(alias chains are collapsed to their terminal target).  Stated for a
namespace with duplicate-free relation names whose IsPermission capability
agrees with the namespace (as a validated type system guarantees). -/
theorem computePermissionAliases_fully_resolved (ts : ValidatedNamespaceTypeSystem)
    (hnd : (ts.nsDef.relation.map Relation.name).Nodup)
    (hwf : ∀ s, ts.IsPermission s = true ↔
      ∃ rel ∈ ts.nsDef.relation, rel.name = s ∧ rel.usersetRewrite ≠ none)
    (m : List (String × String)) (hok : computePermissionAliases ts = .ok m)
    (k v : String) (hkv : lookupKey m k = some v) :
    lookupKey m v = none := by
  have hinv := ClassInv_to_ResolveInv ts _ (classify_inv ts hwf hnd)
  have hres := resolveLoop_ok_resolved (classifyRelations ts).workingSet.length
    (classifyRelations ts).workingSet le_rfl (classifyRelations ts).done
    (classifyRelations ts).aliases m hinv (by simpa [computePermissionAliases] using hok)
  exact lookupKey_eq_none.mpr (hres (k, v) (lookupKey_mem hkv))

/-- Example namespace for the witnesses: permission viewer aliases
permission editor, which aliases relation owner. -/
def nsAliasExample : NamespaceDefinition :=
  ⟨[⟨"viewer", some (.union ⟨[.computedUserset ⟨"editor"⟩]⟩)⟩,
    ⟨"editor", some (.union ⟨[.computedUserset ⟨"owner"⟩]⟩)⟩,
    ⟨"owner", none⟩]⟩

/-- Example type system over `nsAliasExample` with the derived
IsPermission. -/
def tsAliasExample : ValidatedNamespaceTypeSystem :=
  ⟨nsAliasExample, isPermissionIn nsAliasExample⟩

/-- Witness for C9: on the example namespace the analysis returns the
collapsed map and the value of the viewer alias is not a key. -/
theorem computePermissionAliases_fully_resolved_witness :
    (tsAliasExample.nsDef.relation.map Relation.name).Nodup ∧
    (∀ s, tsAliasExample.IsPermission s = true ↔
      ∃ rel ∈ tsAliasExample.nsDef.relation, rel.name = s ∧ rel.usersetRewrite ≠ none) ∧
    computePermissionAliases tsAliasExample =
      .ok [("editor", "owner"), ("viewer", "owner")] ∧
    lookupKey [("editor", "owner"), ("viewer", "owner")] "viewer" = some "owner" ∧
    lookupKey [("editor", "owner"), ("viewer", "owner")] "owner" = none := by
  have hok : computePermissionAliases tsAliasExample =
      .ok [("editor", "owner"), ("viewer", "owner")] := by
    simp [computePermissionAliases, resolveLoop, classifyRelations, classifyRel,
      tsAliasExample, nsAliasExample, resolvePass, insertName, putKey, lookupKey,
      UsersetRewrite.getUnion, SetOperationChild.getComputedUserset, isPermissionIn]
  refine ⟨by decide, fun s => isPermissionIn_iff nsAliasExample s, hok, by decide, ?_⟩
  exact computePermissionAliases_fully_resolved tsAliasExample (by decide)
    (fun s => isPermissionIn_iff nsAliasExample s) _ hok "viewer" "owner" (by decide)

/-- One full pass of the resolution loop, at the level of the combined
state. -/
def onePass (st : ClassState) : ClassState :=
  ⟨(resolvePass st.done st.aliases st.workingSet).1,
   (resolvePass st.done st.aliases st.workingSet).2.1,
   (resolvePass st.done st.aliases st.workingSet).2.2⟩

/-- State after `n` resolution passes. -/
def passIterFrom : Nat → ClassState → ClassState
  | 0, st => st
  | n + 1, st => passIterFrom n (onePass st)

/-- A state on which the loop reports a cycle: the working set is nonempty
and a pass resolves no permission. -/
def stuckState (st : ClassState) : Prop :=
  st.workingSet ≠ [] ∧ (onePass st).workingSet.length = st.workingSet.length

theorem onePass_empty {st : ClassState} (h : st.workingSet = []) :
    (onePass st).workingSet = [] := by
  simp [onePass, h, resolvePass]

theorem passIterFrom_empty {st : ClassState} (h : st.workingSet = []) :
    ∀ n, (passIterFrom n st).workingSet = [] := by
  intro n
  induction n generalizing st with
  | zero => simpa [passIterFrom] using h
  | succ m ih => simpa [passIterFrom] using ih (onePass_empty h)

theorem resolvePass_stuck :
    ∀ (cur : List (String × String)) (done : List String)
      (aliases : List (String × String)),
      (resolvePass done aliases cur).2.2.length = cur.length →
      resolvePass done aliases cur = (done, aliases, cur) ∧
        ∀ p ∈ cur, p.2 ∉ done := by
  intro cur
  induction cur with
  | nil => intro d a _; exact ⟨by simp [resolvePass], by simp⟩
  | cons hd rest ih =>
    obtain ⟨k, t⟩ := hd
    intro d a hlen
    by_cases ht : t ∈ d
    · exfalso
      have h1 : (resolvePass d a ((k, t) :: rest)).2.2.length ≤ rest.length := by
        simp only [resolvePass, if_pos ht]
        exact resolvePass_length_le _ _ _
      simp only [List.length_cons] at hlen
      omega
    · have hr : (resolvePass d a ((k, t) :: rest)).2.2 =
          (k, t) :: (resolvePass d a rest).2.2 := by
        simp [resolvePass, ht]
      have hlen' : (resolvePass d a rest).2.2.length = rest.length := by
        rw [hr] at hlen
        simpa using hlen
      obtain ⟨heq, htargets⟩ := ih d a hlen'
      constructor
      · simp [resolvePass, ht, heq]
      · intro p hp
        rcases List.mem_cons.mp hp with h | h
        · subst h; exact ht
        · exact htargets p h

theorem stuck_untouched {st : ClassState} (h : stuckState st) :
    onePass st = st ∧ ∀ p ∈ st.workingSet, p.2 ∉ st.done := by
  obtain ⟨heq, htargets⟩ := resolvePass_stuck st.workingSet st.done st.aliases h.2
  exact ⟨by simp [onePass, heq], htargets⟩

theorem exists_stuck_succ (st : ClassState) :
    (∃ m, stuckState (passIterFrom m st)) ↔
      stuckState st ∨ ∃ m, stuckState (passIterFrom m (onePass st)) := by
  constructor
  · rintro ⟨m, hm⟩
    cases m with
    | zero => exact Or.inl hm
    | succ m' => exact Or.inr ⟨m', hm⟩
  · rintro (h | ⟨m, hm⟩)
    · exact ⟨0, h⟩
    · exact ⟨m + 1, hm⟩

theorem resolveLoop_error_iff_stuck (n : Nat) :
    ∀ (ws : List (String × String)), ws.length ≤ n →
    ∀ (done : List String) (aliases : List (String × String)),
      ((∃ l, resolveLoop done aliases ws = .error l) ↔
        ∃ m, stuckState (passIterFrom m ⟨done, aliases, ws⟩)) := by
  induction n with
  | zero =>
    intro ws h d a
    have hw : ws = [] := by cases ws <;> simp_all
    subst hw
    rw [resolveLoop]
    simp only [if_pos rfl]
    constructor
    · rintro ⟨l, hl⟩; cases hl
    · rintro ⟨m, hm⟩
      exact absurd (passIterFrom_empty rfl m) hm.1
  | succ f ih =>
    intro ws h d a
    by_cases hw : ws = []
    · subst hw
      rw [resolveLoop]
      simp only [if_pos rfl]
      constructor
      · rintro ⟨l, hl⟩; cases hl
      · rintro ⟨m, hm⟩
        exact absurd (passIterFrom_empty rfl m) hm.1
    · rw [resolveLoop]
      simp only [if_neg hw]
      by_cases hl : (resolvePass d a ws).2.2.length = ws.length
      · simp only [hl, dite_true]
        constructor
        · intro _
          exact ⟨0, hw, by simpa [onePass] using hl⟩
        · intro _
          exact ⟨_, rfl⟩
      · simp only [hl, dite_false]
        have hrec := ih (resolvePass d a ws).2.2
          (by have := resolvePass_length_le d a ws; omega)
          (resolvePass d a ws).1 (resolvePass d a ws).2.1
        rw [hrec, exists_stuck_succ ⟨d, a, ws⟩]
        have hnstuck : ¬ stuckState ⟨d, a, ws⟩ := fun hs => hl hs.2
        simp only [hnstuck, false_or]
        rfl

theorem resolveLoop_error_spec (n : Nat) :
    ∀ (ws : List (String × String)), ws.length ≤ n →
    ∀ (done : List String) (aliases : List (String × String)) (l : List String),
      resolveLoop done aliases ws = .error l →
      ∃ m, stuckState (passIterFrom m ⟨done, aliases, ws⟩) ∧
        l = List.insertionSort (· ≤ ·)
          (keysOf (passIterFrom m ⟨done, aliases, ws⟩).workingSet) := by
  induction n with
  | zero =>
    intro ws h d a l hl
    have hw : ws = [] := by cases ws <;> simp_all
    subst hw
    rw [resolveLoop] at hl
    cases hl
  | succ f ih =>
    intro ws h d a l hl
    by_cases hw : ws = []
    · subst hw; rw [resolveLoop] at hl; cases hl
    · rw [resolveLoop] at hl
      simp only [if_neg hw] at hl
      by_cases hlen : (resolvePass d a ws).2.2.length = ws.length
      · simp only [hlen, dite_true] at hl
        obtain ⟨heq, _⟩ := resolvePass_stuck ws d a hlen
        refine ⟨0, ⟨hw, by simpa [onePass] using hlen⟩, ?_⟩
        simp only [passIterFrom]
        have : (resolvePass d a ws).2.2 = ws := by rw [heq]
        rw [this] at hl
        exact (Except.error.inj hl).symm
      · simp only [hlen, dite_false] at hl
        obtain ⟨m, hm, hleq⟩ := ih (resolvePass d a ws).2.2
          (by have := resolvePass_length_le d a ws; omega)
          (resolvePass d a ws).1 (resolvePass d a ws).2.1 l hl
        exact ⟨m + 1, hm, hleq⟩

/-- Closure of working-set targets: every pending target is either already
resolved (done) or again a pending key. -/
def TargetsClosed (done : List String) (pending : List (String × String)) : Prop :=
  ∀ p ∈ pending, p.2 ∈ done ∨ p.2 ∈ keysOf pending

theorem TargetsClosed_perm {done : List String} {p1 p2 : List (String × String)}
    (hp : p1.Perm p2) (h : TargetsClosed done p1) : TargetsClosed done p2 := by
  intro p hpm
  rcases h p (hp.mem_iff.mpr hpm) with hd | hk
  · exact Or.inl hd
  · exact Or.inr ((hp.map Prod.fst).mem_iff.mp hk)

theorem TargetsClosed_step {done : List String} {k t : String}
    {rest : List (String × String)}
    (h : TargetsClosed done ((k, t) :: rest)) :
    TargetsClosed (insertName done k) rest := by
  intro p hp
  rcases h p (List.mem_cons_of_mem _ hp) with hd | hk
  · exact Or.inl (subset_insertName done k hd)
  · have : p.2 = k ∨ p.2 ∈ keysOf rest := by
      simpa [keysOf] using hk
    rcases this with he | hm
    · exact Or.inl (he ▸ mem_insertName done k)
    · exact Or.inr hm

theorem TargetsClosed_resolvePass :
    ∀ (cur : List (String × String)) (done : List String)
      (aliases skipped : List (String × String)),
      TargetsClosed done (cur ++ skipped) →
      TargetsClosed (resolvePass done aliases cur).1
        ((resolvePass done aliases cur).2.2 ++ skipped) := by
  intro cur
  induction cur with
  | nil => intro d a sk h; simpa [resolvePass] using h
  | cons hd rest ih =>
    obtain ⟨k, t⟩ := hd
    intro d a sk h
    by_cases ht : t ∈ d
    · have hstep : TargetsClosed (insertName d k) (rest ++ sk) :=
        TargetsClosed_step (by simpa using h)
      have := ih (insertName d k) (putKey a k ((lookupKey a t).getD t)) sk hstep
      simpa [resolvePass, ht] using this
    · have hperm : ((k, t) :: (rest ++ sk)).Perm (rest ++ (k, t) :: sk) :=
        List.perm_middle.symm
      have h' := TargetsClosed_perm hperm (by simpa using h)
      have := ih d a ((k, t) :: sk) h'
      have hmid : ((resolvePass d a rest).2.2 ++ (k, t) :: sk).Perm
          ((k, t) :: ((resolvePass d a rest).2.2 ++ sk)) := List.perm_middle
      have hres := TargetsClosed_perm hmid this
      simpa [resolvePass, ht] using hres

theorem TargetsClosed_onePass {st : ClassState}
    (h : TargetsClosed st.done st.workingSet) :
    TargetsClosed (onePass st).done (onePass st).workingSet := by
  have := TargetsClosed_resolvePass st.workingSet st.done st.aliases [] (by simpa using h)
  simpa [onePass] using this

theorem TargetsClosed_passIter (n : Nat) {st : ClassState}
    (h : TargetsClosed st.done st.workingSet) :
    TargetsClosed (passIterFrom n st).done (passIterFrom n st).workingSet := by
  induction n generalizing st with
  | zero => simpa [passIterFrom] using h
  | succ m ih => simpa [passIterFrom] using ih (TargetsClosed_onePass h)

theorem mem_keysOf_putKey (m : List (String × String)) (k v : String) :
    k ∈ keysOf (putKey m k v) := by
  rw [keysOf_putKey]
  split
  · assumption
  · simp

theorem classifyRel_mono (ts : ValidatedNamespaceTypeSystem) (st : ClassState)
    (r : Relation) :
    st.done ⊆ (classifyRel ts st r).done ∧
    keysOf st.workingSet ⊆ keysOf (classifyRel ts st r).workingSet := by
  unfold classifyRel
  repeat' split
  all_goals
    refine ⟨?_, ?_⟩ <;>
      first
        | exact subset_insertName _ _
        | exact fun x hx => hx
        | · rw [keysOf_putKey]
            split
            · exact fun x hx => hx
            · exact fun x hx => List.mem_append.mpr (Or.inl hx)

theorem classifyRel_name_covered (ts : ValidatedNamespaceTypeSystem) (st : ClassState)
    (r : Relation) :
    r.name ∈ (classifyRel ts st r).done ∨
      r.name ∈ keysOf (classifyRel ts st r).workingSet := by
  unfold classifyRel
  repeat' split
  all_goals
    first
      | exact Or.inl (mem_insertName _ _)
      | exact Or.inr (mem_keysOf_putKey _ _ _)

theorem classify_fold_mono (ts : ValidatedNamespaceTypeSystem) :
    ∀ (rels : List Relation) (st : ClassState),
      st.done ⊆ (rels.foldl (classifyRel ts) st).done ∧
      keysOf st.workingSet ⊆ keysOf (rels.foldl (classifyRel ts) st).workingSet := by
  intro rels
  induction rels with
  | nil => intro st; exact ⟨fun x hx => hx, fun x hx => hx⟩
  | cons r rest ih =>
    intro st
    obtain ⟨h1, h2⟩ := classifyRel_mono ts st r
    obtain ⟨g1, g2⟩ := ih (classifyRel ts st r)
    exact ⟨fun x hx => g1 (h1 hx), fun x hx => g2 (h2 hx)⟩

theorem classify_names_covered (ts : ValidatedNamespaceTypeSystem) :
    ∀ r ∈ ts.nsDef.relation,
      r.name ∈ (classifyRelations ts).done ∨
        r.name ∈ keysOf (classifyRelations ts).workingSet := by
  have hgen : ∀ (rels : List Relation) (st : ClassState), ∀ r ∈ rels,
      r.name ∈ (rels.foldl (classifyRel ts) st).done ∨
        r.name ∈ keysOf (rels.foldl (classifyRel ts) st).workingSet := by
    intro rels
    induction rels with
    | nil => intro st r h; cases h
    | cons x rest ih =>
      intro st r hr
      rcases List.mem_cons.mp hr with he | hm
      · subst he
        simp only [List.foldl_cons]
        obtain ⟨g1, g2⟩ := classify_fold_mono ts rest (classifyRel ts st r)
        rcases classifyRel_name_covered ts st r with h | h
        · exact Or.inl (g1 h)
        · exact Or.inr (g2 h)
      · simpa using ih (classifyRel ts st x) r hm
  exact hgen ts.nsDef.relation ⟨[], [], []⟩

theorem classify_targets_closed (ts : ValidatedNamespaceTypeSystem)
    (hwf : ∀ s, ts.IsPermission s = true ↔
      ∃ rel ∈ ts.nsDef.relation, rel.name = s ∧ rel.usersetRewrite ≠ none)
    (hnd : (ts.nsDef.relation.map Relation.name).Nodup) :
    TargetsClosed (classifyRelations ts).done (classifyRelations ts).workingSet := by
  intro p hp
  have c8 := (classify_inv ts hwf hnd).2.2.2.2.2.2.2
  obtain ⟨rel, hrel, hname, _⟩ := (hwf p.2).mp (c8 p hp)
  rcases classify_names_covered ts rel hrel with h | h
  · exact Or.inl (hname ▸ h)
  · exact Or.inr (hname ▸ h)

/-- C10: computePermissionAliases returns an error exactly when the
resolution reaches a pass that resolves no permission; the error lists the
unresolved permission names lexicographically sorted (hence deterministic
given the stuck set), the stuck set is nonempty, and it is closed under
the alias relation (every unresolved target is again an unresolved key — a
cycle among directly-aliasing permissions). -/
theorem computePermissionAliases_error_iff_cycle (ts : ValidatedNamespaceTypeSystem)
    (hnd : (ts.nsDef.relation.map Relation.name).Nodup)
    (hwf : ∀ s, ts.IsPermission s = true ↔
      ∃ rel ∈ ts.nsDef.relation, rel.name = s ∧ rel.usersetRewrite ≠ none) :
    ((∃ l, computePermissionAliases ts = .error l) ↔
      ∃ m, stuckState (passIterFrom m (classifyRelations ts))) ∧
    (∀ l, computePermissionAliases ts = .error l →
      l.Sorted (· ≤ ·) ∧ l ≠ [] ∧
      ∃ m, stuckState (passIterFrom m (classifyRelations ts)) ∧
        l = List.insertionSort (· ≤ ·)
          (keysOf (passIterFrom m (classifyRelations ts)).workingSet) ∧
        ∀ p ∈ (passIterFrom m (classifyRelations ts)).workingSet,
          p.2 ∈ keysOf (passIterFrom m (classifyRelations ts)).workingSet) := by
  constructor
  · exact resolveLoop_error_iff_stuck (classifyRelations ts).workingSet.length
      (classifyRelations ts).workingSet le_rfl (classifyRelations ts).done
      (classifyRelations ts).aliases
  · intro l hl
    obtain ⟨m, hm, hleq⟩ := resolveLoop_error_spec
      (classifyRelations ts).workingSet.length (classifyRelations ts).workingSet le_rfl
      (classifyRelations ts).done (classifyRelations ts).aliases l
      (by simpa [computePermissionAliases] using hl)
    have hsorted : l.Sorted (· ≤ ·) := by
      rw [hleq]; exact List.sorted_insertionSort _ _
    have hlen : l.length = (passIterFrom m (classifyRelations ts)).workingSet.length := by
      rw [hleq, (List.perm_insertionSort _ _).length_eq]
      simp [keysOf]
    have hne : l ≠ [] := by
      intro he
      rw [he] at hlen
      simp only [List.length_nil] at hlen
      exact hm.1 (List.length_eq_zero.mp hlen.symm)
    refine ⟨hsorted, hne, m, hm, hleq, ?_⟩
    intro p hp
    have hclosed := TargetsClosed_passIter m (classify_targets_closed ts hwf hnd)
    rcases hclosed p hp with hd | hk
    · exact absurd hd ((stuck_untouched hm).2 p hp)
    · exact hk

/-- Example namespace with a two-permission alias cycle. -/
def nsCycleExample : NamespaceDefinition :=
  ⟨[⟨"a", some (.union ⟨[.computedUserset ⟨"b"⟩]⟩)⟩,
    ⟨"b", some (.union ⟨[.computedUserset ⟨"a"⟩]⟩)⟩]⟩

/-- Example type system over `nsCycleExample` with the derived
IsPermission. -/
def tsCycleExample : ValidatedNamespaceTypeSystem :=
  ⟨nsCycleExample, isPermissionIn nsCycleExample⟩

/-- Witness for C10: the cyclic example satisfies the hypotheses and the
characterization applies to it. -/
theorem computePermissionAliases_error_iff_cycle_witness :
    (tsCycleExample.nsDef.relation.map Relation.name).Nodup ∧
    (∀ s, tsCycleExample.IsPermission s = true ↔
      ∃ rel ∈ tsCycleExample.nsDef.relation, rel.name = s ∧ rel.usersetRewrite ≠ none) ∧
    (((∃ l, computePermissionAliases tsCycleExample = .error l) ↔
      ∃ m, stuckState (passIterFrom m (classifyRelations tsCycleExample))) ∧
    (∀ l, computePermissionAliases tsCycleExample = .error l →
      l.Sorted (· ≤ ·) ∧ l ≠ [] ∧
      ∃ m, stuckState (passIterFrom m (classifyRelations tsCycleExample)) ∧
        l = List.insertionSort (· ≤ ·)
          (keysOf (passIterFrom m (classifyRelations tsCycleExample)).workingSet) ∧
        ∀ p ∈ (passIterFrom m (classifyRelations tsCycleExample)).workingSet,
          p.2 ∈ keysOf (passIterFrom m (classifyRelations tsCycleExample)).workingSet)) :=
  ⟨by decide, fun s => isPermissionIn_iff nsCycleExample s,
   computePermissionAliases_error_iff_cycle tsCycleExample (by decide)
     (fun s => isPermissionIn_iff nsCycleExample s)⟩

/-! ## Part B: garbage-collection engine

The fake backend (`fakeGC`, the deleters, the metrics record) is embedded
from the test file of the `common` datastore package.  The engine itself
(`RunGarbageCollection`, `StartGarbageCollector`,
`startGarbageCollectorWithMaxElapsedTime` and the backoff policy) is not
among the extracted sources, so it is modelled from the specification
(sections 4.2 to 4.5, 7 and 8 of the spec).  Time is discrete, in
nanoseconds; every loop iteration consumes one extra nanosecond beyond its
wait, standing for the (positive) execution cost of an attempt. -/

/-- Errors visible to the collector: the backend's terminal delete error
(the fake deleters return the fixed error "delete error") and the external
cancellation error. -/
inductive GCErr
  | deleteErr
  | canceled
  deriving DecidableEq, Repr

/-- DeletionCounts: how many rows were removed, broken down by category
(relationship rows, transaction records, namespace metadata).  Modelled
from the spec: the record itself lives with the engine outside the
extracted sources. -/
structure DeletionCounts where
  relationships : Int
  transactions : Int
  namespaces : Int
  deriving DecidableEq, Repr

/-- gcDeleter interface of the test file: deletion behaviour by revision. -/
abbrev GcDeleter := Int → Except GCErr DeletionCounts

/-- alwaysErrorDeleter: every delete attempt fails. -/
def alwaysErrorDeleter : GcDeleter := fun _ => .error .deleteErr

/-- revisionErrorDeleter: fails exactly on the listed revisions. -/
def revisionErrorDeleter (errorOnRevisions : List Int) : GcDeleter := fun rev =>
  if rev ∈ errorOnRevisions then .error .deleteErr else .ok ⟨0, 0, 0⟩

/-- gcMetrics record of the fake backend. -/
structure GcMetrics where
  deleteBeforeTxCount : Nat
  markedCompleteCount : Nat
  resetGCCompletedCount : Nat
  deriving DecidableEq, Repr

/-- fakeGC: fake garbage collector that returns a new incremented revision
each time TxIDBefore is called.  The deleter is passed separately so that
the state stays first-order. -/
structure FakeGC where
  lastRevision : Int
  metrics : GcMetrics
  deriving DecidableEq, Repr

/-- newFakeGC: revision counter at zero, metrics at zero. -/
def newFakeGC : FakeGC := ⟨0, ⟨0, 0, 0⟩⟩

/-- TxIDBefore of the fake: increments and returns the revision counter,
ignoring the time threshold. -/
def FakeGC.txIDBefore (gc : FakeGC) (_threshold : Int) : Int × FakeGC :=
  (gc.lastRevision + 1, { gc with lastRevision := gc.lastRevision + 1 })

/-- DeleteBeforeTx of the fake: counts the call and delegates to the
deleter at the integer value of the revision. -/
def FakeGC.deleteBeforeTx (gc : FakeGC) (deleter : GcDeleter) (rev : Int) :
    Except GCErr DeletionCounts × FakeGC :=
  (deleter rev,
    { gc with metrics :=
        { gc.metrics with deleteBeforeTxCount := gc.metrics.deleteBeforeTxCount + 1 } })

/-- MarkGCCompleted of the fake: counts the completion. -/
def FakeGC.markGCCompleted (gc : FakeGC) : FakeGC :=
  { gc with metrics :=
      { gc.metrics with markedCompleteCount := gc.metrics.markedCompleteCount + 1 } }

/-- ResetGCCompleted of the fake: counts the reset. -/
def FakeGC.resetGCCompleted (gc : FakeGC) : FakeGC :=
  { gc with metrics :=
      { gc.metrics with resetGCCompletedCount := gc.metrics.resetGCCompletedCount + 1 } }

/-- HasGCRun of the fake: whether a cycle was ever marked completed. -/
def FakeGC.hasGCRun (gc : FakeGC) : Bool := 0 < gc.metrics.markedCompleteCount

/-- Record of one DeleteBeforeTx invocation: the backend clock reading the
attempt observed, the threshold handed to TxIDBefore and the watermark
handed to DeleteBeforeTx. -/
structure DeleteCall where
  observedNow : Nat
  threshold : Int
  watermark : Int
  deriving DecidableEq, Repr

/-- Modelled from the spec: the Backoff Policy of section 4.2, whose source
is outside the extracted sources.  Constructed from a base interval and a
maximum total elapsed time. -/
structure BackoffPolicy where
  initialInterval : Nat
  maxElapsedTime : Nat
  deriving DecidableEq, Repr

/-- Mutable per-sequence backoff state: current delay and elapsed time of
the sequence. -/
structure BackoffState where
  currentInterval : Nat
  elapsedTime : Nat
  deriving DecidableEq, Repr

/-- Reset of the backoff sequence: the delay returns to the base interval
and the elapsed time to zero (section 4.2: on success the sequence is
discarded entirely). -/
def BackoffPolicy.reset (p : BackoffPolicy) : BackoffState := ⟨p.initialInterval, 0⟩

/-- Modelled from the spec: NextDelay of the Backoff Policy (section 4.2).
If the elapsed time of the sequence plus the computed delay would exceed
the maximum elapsed time, the policy signals exhaustion (`none`);
otherwise it yields the current delay and grows it exponentially (1.5
multiplier). -/
def nextBackOff (p : BackoffPolicy) (s : BackoffState) : Option Nat × BackoffState :=
  if p.maxElapsedTime < s.elapsedTime + s.currentInterval then (none, s)
  else (some s.currentInterval,
        ⟨s.currentInterval * 3 / 2, s.elapsedTime + s.currentInterval⟩)

/-- Modelled from the spec: one garbage-collection attempt (section 4.3,
steps 1 to 5) against the fake backend at backend clock `now`: readiness
(the fake is always ready), threshold = Now() minus the window, watermark
from TxIDBefore, DeleteBeforeTx at that watermark, MarkGCCompleted on
success.  Returns the attempt result, the new backend state and the record
of the delete call. -/
def runGarbageCollectionOnce (deleter : GcDeleter) (window : Nat) (now : Nat)
    (gc : FakeGC) : Except GCErr DeletionCounts × FakeGC × DeleteCall :=
  let threshold : Int := (now : Int) - (window : Int)
  let tx := gc.txIDBefore threshold
  let del := FakeGC.deleteBeforeTx tx.2 deleter tx.1
  let call : DeleteCall := ⟨now, threshold, tx.1⟩
  match del.1 with
  | .ok counts => (.ok counts, del.2.markGCCompleted, call)
  | .error e => (.error e, del.2, call)

/-- Modelled from the spec: the One-Shot Runner (section 4.5): performs the
single underlying attempt and surfaces its terminal error unchanged, or its
deletion counts. -/
def runGarbageCollection (deleter : GcDeleter) (window : Nat) (now : Nat)
    (gc : FakeGC) : Except GCErr DeletionCounts × FakeGC :=
  let r := runGarbageCollectionOnce deleter window now gc
  (r.1, r.2.1)

/-- Configuration of the scheduler: interval, window, maximum backoff
elapsed time, per-attempt timeout and deletion behaviour (section 6,
configuration surface). -/
structure SchedConfig where
  interval : Nat
  window : Nat
  maxElapsedTime : Nat
  timeout : Nat
  deleter : GcDeleter

/-- Backoff policy of a configuration: base interval and maximum elapsed
time taken from the configuration. -/
def SchedConfig.policy (cfg : SchedConfig) : BackoffPolicy :=
  ⟨cfg.interval, cfg.maxElapsedTime⟩

/-- State of the scheduler loop: virtual clock, pending wait, backoff
state, backend state, failure counter and the trace of delete calls. -/
structure SchedState where
  time : Nat
  nextInterval : Nat
  backoff : BackoffState
  gc : FakeGC
  failureCounter : Nat
  calls : List DeleteCall

/-- Modelled from the spec: one iteration of the scheduler loop (sections
4.2, 4.4 and 8): wait the pending interval (plus one nanosecond of
execution cost), run one attempt at the backend clock; on failure
increment the failure counter and wait next for the backoff policy's
delay, zero when the policy is exhausted (retry with no delay); on success
discard the backoff sequence entirely and return to the configured
interval. -/
def schedStep (cfg : SchedConfig) (s : SchedState) : SchedState :=
  let now := s.time + s.nextInterval + 1
  let r := runGarbageCollectionOnce cfg.deleter cfg.window now s.gc
  match r.1 with
  | .error _ =>
    let nb := nextBackOff cfg.policy s.backoff
    { time := now
      nextInterval := nb.1.getD 0
      backoff := nb.2
      gc := r.2.1
      failureCounter := s.failureCounter + 1
      calls := s.calls ++ [r.2.2] }
  | .ok _ =>
    { time := now
      nextInterval := cfg.interval
      backoff := cfg.policy.reset
      gc := r.2.1
      failureCounter := s.failureCounter
      calls := s.calls ++ [r.2.2] }

/-- Initial state of the scheduler loop: clock zero, first wait of one full
interval, fresh backoff sequence, fresh fake backend. -/
def initState (cfg : SchedConfig) : SchedState :=
  ⟨0, cfg.interval, cfg.policy.reset, newFakeGC, 0, []⟩

/-- State reached from `s` after `n` scheduler iterations. -/
def stateFrom (cfg : SchedConfig) : Nat → SchedState → SchedState
  | 0, s => s
  | n + 1, s => stateFrom cfg n (schedStep cfg s)

/-- State of the scheduler loop after `n` iterations from the start. -/
def stateAt (cfg : SchedConfig) (n : Nat) : SchedState :=
  stateFrom cfg n (initState cfg)

/-- Whether the attempt of the next tick from state `s` fails. -/
def tickFails (cfg : SchedConfig) (s : SchedState) : Bool :=
  match (runGarbageCollectionOnce cfg.deleter cfg.window
      (s.time + s.nextInterval + 1) s.gc).1 with
  | .error _ => true
  | .ok _ => false

/-- Modelled from the spec: the scheduler loop under an external
cancellation signal firing at time `cancelAt` (sections 4.4, 5 and 7).
Every iteration begins with an interruptible wait; a wait during which the
signal fires is aborted, the loop returning the cancellation error.
`Sum.inr` carries the state of a loop still running after `n`
iterations. -/
def schedRun (cfg : SchedConfig) (cancelAt : Nat) : Nat → SchedState → GCErr ⊕ SchedState
  | 0, s => .inr s
  | n + 1, s =>
    if cancelAt ≤ s.time + s.nextInterval then .inl GCErr.canceled
    else schedRun cfg cancelAt n (schedStep cfg s)

/-- Whether the cancellation signal fires during one of the first `n`
waits of a run from `s`. -/
def firesBefore (cfg : SchedConfig) (cancelAt : Nat) : Nat → SchedState → Bool
  | 0, _ => false
  | n + 1, s =>
    decide (cancelAt ≤ s.time + s.nextInterval) ||
      firesBefore cfg cancelAt n (schedStep cfg s)

/-- Nanoseconds in a millisecond. -/
def millisecond : Nat := 1000000

/-- Nanoseconds in a second. -/
def second : Nat := 1000000000

/-- Configuration of the first scenario of TestGCFailureBackoff: 100ms
interval, 1s window, 1ns maximum elapsed time, 1min timeout, always-failing
deleter. -/
def cfgTightRetry : SchedConfig :=
  ⟨100 * millisecond, 1 * second, 1, 60 * second, alwaysErrorDeleter⟩

/-- Family of configurations of the second scenario of
TestGCFailureBackoff: 100ms interval, zero window, 1min timeout,
always-failing deleter, with the maximum elapsed time left as a
parameter. -/
def cfgHonored (met : Nat) : SchedConfig :=
  ⟨100 * millisecond, 0, met, 60 * second, alwaysErrorDeleter⟩

/-- Modelled from the spec: default maximum backoff elapsed time used by
StartGarbageCollector when none is given explicitly; the spec leaves the
value to the backoff library (15 minutes), far above every observation
window of the tests. -/
def defaultMaxElapsedTime : Nat := 900 * second

/-- Configuration of TestGCFailureBackoffReset: 10ms interval, 10s window,
default maximum elapsed time, 1min timeout, deleter failing exactly on
revisions 1 to 5. -/
def cfgBackoffReset : SchedConfig :=
  ⟨10 * millisecond, 10 * second, defaultMaxElapsedTime, 60 * second,
    revisionErrorDeleter [1, 2, 3, 4, 5]⟩

/-! ### Structural lemmas about the scheduler step -/

theorem schedStep_time (cfg : SchedConfig) (s : SchedState) :
    (schedStep cfg s).time = s.time + s.nextInterval + 1 := by
  rcases h : cfg.deleter (s.gc.lastRevision + 1) with e | c <;>
    simp [schedStep, runGarbageCollectionOnce, FakeGC.txIDBefore, FakeGC.deleteBeforeTx, h]

theorem schedStep_failureCounter (cfg : SchedConfig) (s : SchedState) :
    (schedStep cfg s).failureCounter =
      s.failureCounter + (if tickFails cfg s = true then 1 else 0) := by
  rcases h : cfg.deleter (s.gc.lastRevision + 1) with e | c <;>
    simp [schedStep, tickFails, runGarbageCollectionOnce, FakeGC.txIDBefore,
      FakeGC.deleteBeforeTx, h]

theorem schedStep_fail (cfg : SchedConfig) (s : SchedState) (h : tickFails cfg s = true) :
    (schedStep cfg s).nextInterval = (nextBackOff cfg.policy s.backoff).1.getD 0 ∧
    (schedStep cfg s).backoff = (nextBackOff cfg.policy s.backoff).2 := by
  rcases hd : cfg.deleter (s.gc.lastRevision + 1) with e | c <;>
    simp [schedStep, tickFails, runGarbageCollectionOnce, FakeGC.txIDBefore,
      FakeGC.deleteBeforeTx, hd] at h ⊢

theorem schedStep_ok (cfg : SchedConfig) (s : SchedState) (h : tickFails cfg s = false) :
    (schedStep cfg s).nextInterval = cfg.interval ∧
    (schedStep cfg s).backoff = cfg.policy.reset ∧
    (schedStep cfg s).failureCounter = s.failureCounter := by
  rcases hd : cfg.deleter (s.gc.lastRevision + 1) with e | c <;>
    simp [schedStep, tickFails, runGarbageCollectionOnce, FakeGC.txIDBefore,
      FakeGC.deleteBeforeTx, hd] at h ⊢

theorem schedStep_lastRevision (cfg : SchedConfig) (s : SchedState) :
    (schedStep cfg s).gc.lastRevision = s.gc.lastRevision + 1 := by
  rcases h : cfg.deleter (s.gc.lastRevision + 1) with e | c <;>
    simp [schedStep, runGarbageCollectionOnce, FakeGC.txIDBefore, FakeGC.deleteBeforeTx,
      FakeGC.markGCCompleted, h]

theorem schedStep_calls (cfg : SchedConfig) (s : SchedState) :
    (schedStep cfg s).calls = s.calls ++
      [⟨s.time + s.nextInterval + 1,
        ((s.time + s.nextInterval + 1 : Nat) : Int) - (cfg.window : Int),
        s.gc.lastRevision + 1⟩] := by
  rcases h : cfg.deleter (s.gc.lastRevision + 1) with e | c <;>
    simp [schedStep, runGarbageCollectionOnce, FakeGC.txIDBefore, FakeGC.deleteBeforeTx, h]

theorem stateFrom_succ (cfg : SchedConfig) (n : Nat) (s : SchedState) :
    stateFrom cfg (n + 1) s = schedStep cfg (stateFrom cfg n s) := by
  induction n generalizing s with
  | zero => rfl
  | succ m ih => rw [stateFrom, ih, stateFrom]

theorem stateAt_succ (cfg : SchedConfig) (n : Nat) :
    stateAt cfg (n + 1) = schedStep cfg (stateAt cfg n) := stateFrom_succ cfg n _

theorem stateAt_time_mono (cfg : SchedConfig) {n m : Nat} (h : n ≤ m) :
    (stateAt cfg n).time ≤ (stateAt cfg m).time := by
  induction m with
  | zero => simp_all
  | succ k ih =>
    rcases Nat.lt_or_ge n (k + 1) with hlt | hge
    · have := ih (Nat.lt_succ_iff.mp hlt)
      calc (stateAt cfg n).time ≤ (stateAt cfg k).time := this
        _ ≤ (stateAt cfg (k + 1)).time := by
            rw [stateAt_succ, schedStep_time]; omega
    · have : n = k + 1 := le_antisymm h hge
      simp [this]

/-- Every tick of the always-failing configuration fails. -/
theorem tickFails_tight (s : SchedState) : tickFails cfgTightRetry s = true := by
  simp [tickFails, cfgTightRetry, alwaysErrorDeleter, runGarbageCollectionOnce,
    FakeGC.txIDBefore, FakeGC.deleteBeforeTx]

/-- Trajectory of the 1ns-maximum-elapsed-time run: from the first failure
on, the backoff policy is exhausted, the next wait is zero, and every
iteration adds one failure and one nanosecond. -/
theorem tightRetry_invariant : ∀ n, 1 ≤ n →
    (stateAt cfgTightRetry n).nextInterval = 0 ∧
    (stateAt cfgTightRetry n).failureCounter = n ∧
    (stateAt cfgTightRetry n).time = 100000000 + n ∧
    (stateAt cfgTightRetry n).backoff = ⟨100000000, 0⟩ := by
  intro n hn
  induction n with
  | zero => omega
  | succ m ih =>
    rcases Nat.eq_zero_or_pos m with hm | hm
    · subst hm; decide
    · obtain ⟨h1, h2, h3, h4⟩ := ih hm
      have hf : tickFails cfgTightRetry (stateAt cfgTightRetry m) = true := tickFails_tight _
      obtain ⟨hni, hb⟩ := schedStep_fail _ _ hf
      rw [stateAt_succ]
      refine ⟨?_, ?_, ?_, ?_⟩
      · rw [hni, h4]; decide
      · rw [schedStep_failureCounter, h2, hf]; simp
      · rw [schedStep_time, h3, h1]; omega
      · rw [hb, h4]; decide

/-- Shape of the trace of DeleteBeforeTx calls: after `n` iterations there
is one call per attempt, the backend's revision counter equals the number
of attempts, and the `i`-th call carried threshold = observed backend time
minus the window and watermark = the `i`-th revision handed out by
TxIDBefore. -/
theorem calls_trace_spec (cfg : SchedConfig) (n : Nat) :
    (stateAt cfg n).calls.length = n ∧
    (stateAt cfg n).gc.lastRevision = (n : Int) ∧
    ∀ i, i < n → ∃ obs : Nat,
      (stateAt cfg n).calls.getD i ⟨0, 0, 0⟩ =
        ⟨obs, (obs : Int) - (cfg.window : Int), (i : Int) + 1⟩ := by
  induction n with
  | zero =>
    refine ⟨rfl, rfl, ?_⟩
    omega
  | succ m ih =>
    obtain ⟨hlen, hrev, hind⟩ := ih
    rw [stateAt_succ]
    refine ⟨?_, ?_, ?_⟩
    · rw [schedStep_calls]; simp [hlen]
    · rw [schedStep_lastRevision, hrev]; push_cast; ring
    · intro i hi
      rcases Nat.lt_or_ge i m with him | him
      · obtain ⟨obs, hobs⟩ := hind i him
        refine ⟨obs, ?_⟩
        rw [schedStep_calls, List.getD_append _ _ _ _ (by omega), hobs]
      · have him' : i = m := by omega
        subst him'
        refine ⟨(stateAt cfg i).time + (stateAt cfg i).nextInterval + 1, ?_⟩
        rw [schedStep_calls, List.getD_append_right _ _ _ _ (by omega), hlen]
        simp [hrev]

/-! ### Claim theorems for the garbage-collection engine -/

/-- C1: in every execution, every DeleteBeforeTx call receives exactly the
watermark the backend's TxIDBefore returned for the threshold (backend
clock reading minus the window); the threshold is computed from the
backend's clock, never from a collector-local clock (the model derives it
from the observed backend time only), so the watermark never represents
data newer than Reference Time minus Window. -/
theorem deleteBeforeTx_watermark_from_backend (cfg : SchedConfig) (n i : Nat)
    (h : i < (stateAt cfg n).calls.length) :
    ((stateAt cfg n).calls.getD i ⟨0, 0, 0⟩).threshold =
      (((stateAt cfg n).calls.getD i ⟨0, 0, 0⟩).observedNow : Int) - (cfg.window : Int) ∧
    ((stateAt cfg n).calls.getD i ⟨0, 0, 0⟩).watermark = (i : Int) + 1 := by
  obtain ⟨hlen, _, hind⟩ := calls_trace_spec cfg n
  obtain ⟨obs, hobs⟩ := hind i (hlen ▸ h)
  rw [hobs]
  exact ⟨rfl, rfl⟩

/-- Witness for C1: the first delete call of the first scenario. -/
theorem deleteBeforeTx_watermark_from_backend_witness :
    0 < (stateAt cfgTightRetry 1).calls.length ∧
    (((stateAt cfgTightRetry 1).calls.getD 0 ⟨0, 0, 0⟩).threshold =
      (((stateAt cfgTightRetry 1).calls.getD 0 ⟨0, 0, 0⟩).observedNow : Int) -
        (cfgTightRetry.window : Int) ∧
     ((stateAt cfgTightRetry 1).calls.getD 0 ⟨0, 0, 0⟩).watermark = ((0 : Nat) : Int) + 1) :=
  ⟨by decide, deleteBeforeTx_watermark_from_backend cfgTightRetry 1 0 (by decide)⟩

/-- C2: with a maximum elapsed time (1ns) smaller than the minimum possible
backoff delay (the 100ms base interval), the collector does not stop on
exhaustion but retries with no delay: from the first failure on the next
wait is zero and every iteration records a failure, so the failure count
within the 200ms observation window exceeds 100. -/
theorem exhausted_backoff_retries_without_delay :
    (∀ n, 1 ≤ n →
      (stateAt cfgTightRetry n).nextInterval = 0 ∧
      (stateAt cfgTightRetry n).failureCounter = n) ∧
    ((stateAt cfgTightRetry 102).time ≤ 200 * millisecond ∧
      100 < (stateAt cfgTightRetry 102).failureCounter) := by
  have hinv := tightRetry_invariant
  refine ⟨fun n hn => ⟨(hinv n hn).1, (hinv n hn).2.1⟩, ?_, ?_⟩
  · rw [(hinv 102 (by omega)).2.2.1]; norm_num [millisecond]
  · rw [(hinv 102 (by omega)).2.1]; omega

/-- Witness for C2: the state after the first iteration. -/
theorem exhausted_backoff_retries_without_delay_witness :
    1 ≤ 1 ∧
    ((stateAt cfgTightRetry 1).nextInterval = 0 ∧
     (stateAt cfgTightRetry 1).failureCounter = 1) :=
  ⟨by decide, exhausted_backoff_retries_without_delay.1 1 (by decide)⟩

/-- Every tick of the honored-backoff family fails. -/
theorem tickFails_honored (met : Nat) (s : SchedState) :
    tickFails (cfgHonored met) s = true := by
  simp [tickFails, cfgHonored, alwaysErrorDeleter, runGarbageCollectionOnce,
    FakeGC.txIDBefore, FakeGC.deleteBeforeTx]

/-- C3: for every configured maximum elapsed time on the order of the base
interval (100ms) or larger, the exponential backoff delays are honored, so
against the always-failing backend at most two failed attempts fit in the
200ms observation window: any state whose clock is within the window has a
failure count below 3. -/
theorem honored_backoff_bounds_failures (met : Nat)
    (hmet : 100 * millisecond ≤ met) :
    ∀ n, (stateAt (cfgHonored met) n).time ≤ 200 * millisecond →
      (stateAt (cfgHonored met) n).failureCounter < 3 := by
  have h0t : (stateAt (cfgHonored met) 0).time = 0 := rfl
  have h0n : (stateAt (cfgHonored met) 0).nextInterval = 100000000 := rfl
  have h0b : (stateAt (cfgHonored met) 0).backoff = ⟨100000000, 0⟩ := rfl
  have h0c : (stateAt (cfgHonored met) 0).failureCounter = 0 := rfl
  have hf0 := tickFails_honored met (stateAt (cfgHonored met) 0)
  have h1 := stateAt_succ (cfgHonored met) 0
  have h1t : (stateAt (cfgHonored met) 1).time = 100000001 := by
    rw [h1, schedStep_time, h0t, h0n]
  have h1c : (stateAt (cfgHonored met) 1).failureCounter = 1 := by
    rw [h1, schedStep_failureCounter, h0c, hf0]; simp
  have hnb : nextBackOff (cfgHonored met).policy ⟨100000000, 0⟩ =
      (some 100000000, ⟨150000000, 100000000⟩) := by
    have hlt : ¬ (cfgHonored met).policy.maxElapsedTime < 0 + 100000000 := by
      simp only [cfgHonored, SchedConfig.policy, millisecond] at hmet ⊢
      omega
    simp [nextBackOff, hlt]
  have h1n : (stateAt (cfgHonored met) 1).nextInterval = 100000000 := by
    rw [h1, (schedStep_fail _ _ hf0).1, h0b, hnb]
    rfl
  have h2t : (stateAt (cfgHonored met) 2).time = 200000002 := by
    rw [stateAt_succ, schedStep_time, h1t, h1n]
  intro n h
  by_cases h2 : 2 ≤ n
  · exfalso
    have hm := stateAt_time_mono (cfgHonored met) h2
    rw [h2t] at hm
    norm_num [millisecond] at h
    omega
  · have hn : n = 0 ∨ n = 1 := by omega
    rcases hn with rfl | rfl
    · rw [h0c]; omega
    · rw [h1c]; omega

/-- Witness for C3: at a 1s maximum elapsed time, the state after the
first iteration is inside the window and below the bound. -/
theorem honored_backoff_bounds_failures_witness :
    100 * millisecond ≤ 1 * second ∧
    (stateAt (cfgHonored (1 * second)) 1).time ≤ 200 * millisecond ∧
    (stateAt (cfgHonored (1 * second)) 1).failureCounter < 3 :=
  ⟨by decide, by decide,
   honored_backoff_bounds_failures (1 * second) (by decide) 1 (by decide)⟩

set_option maxRecDepth 40000 in
/-- C4: after any successful attempt the backoff state is discarded
entirely (the sequence returns to the policy's reset state and the next
wait to the configured interval), and concretely, with failures on
revisions 1 to 5 followed by sustained success, more than 20 cycles
complete within the 500ms window at the 10ms interval. -/
theorem backoff_discarded_on_success :
    (∀ cfg s, tickFails cfg s = false →
      (schedStep cfg s).backoff = cfg.policy.reset ∧
      (schedStep cfg s).nextInterval = cfg.interval) ∧
    ((stateAt cfgBackoffReset 26).time ≤ 500 * millisecond ∧
      20 < (stateAt cfgBackoffReset 26).gc.metrics.markedCompleteCount) := by
  refine ⟨fun cfg s h => ⟨(schedStep_ok cfg s h).2.1, (schedStep_ok cfg s h).1⟩, ?_, ?_⟩
  · decide
  · decide

set_option maxRecDepth 40000 in
/-- Witness for C4: the sixth tick of the reset scenario succeeds and
discards the backoff state. -/
theorem backoff_discarded_on_success_witness :
    tickFails cfgBackoffReset (stateAt cfgBackoffReset 5) = false ∧
    ((schedStep cfgBackoffReset (stateAt cfgBackoffReset 5)).backoff =
        cfgBackoffReset.policy.reset ∧
     (schedStep cfgBackoffReset (stateAt cfgBackoffReset 5)).nextInterval =
        cfgBackoffReset.interval) :=
  ⟨by decide, backoff_discarded_on_success.1 cfgBackoffReset _ (by decide)⟩

/-- C5: the scheduler loop never returns because of a per-tick error: a run
of any length either is still going (per-tick errors swallowed, the state
having advanced through every tick) or has returned the cancellation
error, and it returns exactly when the cancellation signal fires during
one of its waits. -/
theorem loop_returns_only_on_cancellation (cfg : SchedConfig) (cancelAt n : Nat)
    (s : SchedState) :
    schedRun cfg cancelAt n s =
      if firesBefore cfg cancelAt n s = true then Sum.inl GCErr.canceled
      else Sum.inr (stateFrom cfg n s) := by
  induction n generalizing s with
  | zero => simp [schedRun, firesBefore, stateFrom]
  | succ m ih =>
    by_cases hc : cancelAt ≤ s.time + s.nextInterval
    · simp [schedRun, firesBefore, hc]
    · simp only [schedRun, firesBefore, stateFrom, if_neg hc, decide_eq_true_eq]
      rw [ih (schedStep cfg s)]
      simp [hc]

/-- C6: the One-Shot Runner returns exactly the backend's answer to the
single underlying attempt — the terminal error unchanged on failure (in
particular the delete error of the always-failing backend), the populated
DeletionCounts exactly on success — and marks the completion exactly on
success. -/
theorem one_shot_returns_backend_result (deleter : GcDeleter) (window now : Nat)
    (gc : FakeGC) :
    (runGarbageCollection deleter window now gc).1 = deleter (gc.lastRevision + 1) ∧
    ((runGarbageCollection deleter window now gc).2.metrics.markedCompleteCount =
      gc.metrics.markedCompleteCount +
        (if (deleter (gc.lastRevision + 1)).isOk then 1 else 0)) ∧
    (runGarbageCollection alwaysErrorDeleter window now gc).1 =
      Except.error GCErr.deleteErr := by
  refine ⟨?_, ?_, ?_⟩ <;>
    rcases h : deleter (gc.lastRevision + 1) with e | c <;>
      simp [runGarbageCollection, runGarbageCollectionOnce, FakeGC.txIDBefore,
        FakeGC.deleteBeforeTx, FakeGC.markGCCompleted, alwaysErrorDeleter, Except.isOk,
        Except.toBool, h]

/-- C7: the failure counter is incremented exactly once per failed attempt
— one per failed tick, zero on a successful tick — and is monotonically
non-decreasing; no operation of the collector ever decreases or resets it. -/
theorem failure_counter_increment_per_failed_attempt (cfg : SchedConfig) (n : Nat) :
    (stateAt cfg (n + 1)).failureCounter =
      (stateAt cfg n).failureCounter +
        (if tickFails cfg (stateAt cfg n) = true then 1 else 0) ∧
    (stateAt cfg n).failureCounter ≤ (stateAt cfg (n + 1)).failureCounter := by
  rw [stateAt_succ]
  refine ⟨schedStep_failureCounter _ _, ?_⟩
  rw [schedStep_failureCounter]; split <;> omega

end SpiceDB
